import Mathlib

/-!
Verification of the core news-briefing pipeline: the content processor
(dedup + persisted state), the collector's temporal/relevance filter and
keyword scorer, and the message formatter (sanitize + length packing).

Text is modelled as `List Char` (one entry per Unicode code point, which is
what Python's `len`/indexing count).  Relevance scores are modelled exactly,
in integer tenths of the source's floating-point units (so the source's
increments 1.5, 0.5, 0.3, 0.2, 0.8, the cap 3.0 and the threshold 0.3 become
15, 5, 3, 2, 8, 30 and 3): every score the source can produce is a small
multiple of one tenth, so this renders the arithmetic faithfully while
staying exact.  Timestamps are integer seconds `Int`.  The persisted URL set
is a `Finset String`.
-/

/-- Substring test, modelling Python's `needle in haystack` on strings:
true iff `needle` occurs contiguously inside `hay`. -/
def hasSubstr (needle : List Char) : List Char → Bool
  | [] => needle.isEmpty
  | c :: rest => needle.isPrefixOf (c :: rest) || hasSubstr needle rest

/-- Whitespace-splitting accumulator for `splitWS`; `cur` holds the current
word reversed. -/
def splitWSAux (cur : List Char) : List Char → List (List Char)
  | [] => if cur.isEmpty then [] else [cur.reverse]
  | c :: rest =>
    if c.isWhitespace then
      if cur.isEmpty then splitWSAux [] rest else cur.reverse :: splitWSAux [] rest
    else splitWSAux (c :: cur) rest

/-- Modelling Python's `str.split()` with no argument: split on runs of
whitespace, discarding empty words. -/
def splitWS (l : List Char) : List (List Char) :=
  splitWSAux [] l

/-- Modelling Python's `' '.join(words)`: concatenate with a single space
between consecutive words. -/
def joinSp : List (List Char) → List Char
  | [] => []
  | [w] => w
  | w :: w2 :: ws => w ++ ' ' :: joinSp (w2 :: ws)

/-- Modelling Python's `str.strip()`: drop whitespace from both ends. -/
def strip (l : List Char) : List Char :=
  ((l.dropWhile Char.isWhitespace).reverse.dropWhile Char.isWhitespace).reverse

/-- Holds when the text has no two adjacent whitespace characters, i.e. all
whitespace runs have been collapsed. -/
def noDoubleWS : List Char → Bool
  | a :: b :: rest => (!(a.isWhitespace && b.isWhitespace)) && noDoubleWS (b :: rest)
  | _ => true

/-- Holds when the first character (if any) is not whitespace. -/
def headNonWS : List Char → Bool
  | [] => true
  | c :: _ => !c.isWhitespace

/-- Modelling Python's `str.replace(target, repl)` for a one-character
target, as used with `'<'`/`'>'` in `_clean_text`. -/
def replaceAll (target : Char) (repl : List Char) (l : List Char) : List Char :=
  l.flatMap fun c => if c = target then repl else [c]

/-- The characters after the last newline of `l`, or `none` when `l`
contains no newline. -/
def afterLastNl : List Char → Option (List Char)
  | [] => none
  | c :: t =>
    match afterLastNl t with
    | some r => some r
    | none => if c = '\n' then some t else none

/-- Fuel-indexed worker for `collapseBlank` (structural recursion on the
fuel keeps the function computable by the kernel; the fuel is set to the
text length, which the recursion never exhausts). -/
def collapseBlankGo : Nat → List Char → List Char
  | 0, l => l
  | _ + 1, [] => []
  | fuel + 1, c :: rest =>
    if c = '\n' then
      match afterLastNl (rest.takeWhile Char.isWhitespace) with
      | some tail => '\n' :: collapseBlankGo fuel (tail ++ rest.dropWhile Char.isWhitespace)
      | none => c :: collapseBlankGo fuel rest
    else c :: collapseBlankGo fuel rest

/-- Modelling the regular-expression step `re.sub` that replaces a newline,
optional whitespace, newline group by a single newline: inside each maximal
whitespace run, everything from the first up to the last newline collapses
to one newline. -/
def collapseBlank (l : List Char) : List Char :=
  collapseBlankGo l.length l

/-- Greedy prefix of words whose space-joined length stays within `budget`;
the helper behind `shorten`. -/
def fitWords (budget : Nat) : List (List Char) → List (List Char)
  | [] => []
  | w :: ws => if w.length ≤ budget then w :: fitWords (budget - (w.length + 1)) ws else []

/-- Modelled from the spec: the summary is truncated to a configured max
width with an ellipsis marker.  This embeds the Python standard-library call
`textwrap.shorten(text, width, placeholder="...")` used by the formatter
(the library itself is not part of this repository): whitespace is
collapsed, the text is returned whole if it fits in `width`, and otherwise
the longest word prefix is kept such that it plus the three-character
placeholder fits, the placeholder being appended. -/
def shorten (width : Nat) (l : List Char) : List Char :=
  let collapsed := joinSp (splitWS l)
  if collapsed.length ≤ width then collapsed
  else
    let kept := fitWords (width - 3) (splitWS l)
    if kept.isEmpty then "...".toList else joinSp kept ++ "...".toList

/-- Embeds `MessageFormatter._clean_text`: empty text maps to empty text;
otherwise escape the two reserved markup characters, collapse blank lines,
collapse all whitespace runs by re-joining the split words with single
spaces, and strip the ends. -/
def cleanText (text : List Char) : List Char :=
  if text.isEmpty then []
  else
    strip (joinSp (splitWS (collapseBlank
      (replaceAll '>' "&gt;".toList (replaceAll '<' "&lt;".toList text)))))

/-- The news item record from `news_collector.NewsItem`.  `publishedAt` is
in integer seconds; `relevanceScore` is in integer tenths of the source's
floating-point score units. -/
structure NewsItem where
  title : String
  summary : String
  url : String
  source : String
  publishedAt : Int
  relevanceScore : Int
deriving DecidableEq, Repr

/-- Embeds `MessageFormatter._format_single_item` on the default template:
clean the title, clean then shorten the summary, strip the url, and render
through the template.  In this embedding all fields are strings, so the
source's exception fallback branch is unreachable. -/
def formatSingleItem (summaryMaxLength : Nat) (item : NewsItem) : List Char :=
  "📰 ".toList ++ cleanText item.title.toList
    ++ "\n📝 ".toList ++ shorten summaryMaxLength (cleanText item.summary.toList)
    ++ "\n🔗 ".toList ++ strip item.url.toList
    ++ "\n\n".toList

/-- The accumulation loop inside `MessageFormatter.format_messages`: when
the next fragment would push the current message past `maxLength`, the
current message (if nonempty) is closed, stripped, and a new message starts
with that fragment; otherwise the fragment is appended.  The final message
is emitted if nonempty. -/
def packLoop (maxLength : Nat) : List (List Char) → List Char → List (List Char)
  | [], cur => if cur.isEmpty then [] else [strip cur]
  | f :: fs, cur =>
    if maxLength < (cur ++ f).length then
      if cur.isEmpty then packLoop maxLength fs f
      else strip cur :: packLoop maxLength fs f
    else packLoop maxLength fs (cur ++ f)

/-- Embeds `MessageFormatter.format_messages`. -/
def formatMessages (maxLength summaryMaxLength : Nat) (items : List NewsItem) : List (List Char) :=
  if items.isEmpty then []
  else packLoop maxLength (items.map (formatSingleItem summaryMaxLength)) []

/-- High-priority keyword tier of `NewsCollector._calculate_relevance`. -/
def highPriorityKw : List (List Char) :=
  ["chatgpt", "cursor", "lovable", "openai", "anthropic", "claude",
   "thais martan", "martan", "thaismartan"].map String.toList

/-- Medium-priority English keyword tier. -/
def mediumPriorityEn : List (List Char) :=
  ["ai", "artificial intelligence", "machine learning", "deep learning",
   "neural network", "gpt", "llm", "large language model", "robotics"].map String.toList

/-- Medium-priority Portuguese keyword tier. -/
def mediumPriorityPt : List (List Char) :=
  ["inteligência artificial", "aprendizado máquina", "aprendizado profundo",
   "rede neural", "ia", "machine learning", "deep learning", "robótica",
   "automação", "tecnologia", "inovação", "startup", "empreendedorismo"].map String.toList

/-- Low-priority generic tech keyword tier (the source list repeats some
entries, which the embedding keeps verbatim). -/
def lowPriorityKw : List (List Char) :=
  ["tech", "technology", "software", "hardware", "digital",
   "tecnologia", "software", "hardware", "digital", "inovação"].map String.toList

/-- Indicator words checked against the first ten whitespace-split words. -/
def titleIndicators : List (List Char) :=
  ["ai", "intelligence", "neural", "learning", "gpt", "model",
   "ia", "inteligência", "aprendizado", "tecnologia"].map String.toList

/-- Social-source markers granting the flat social bonus. -/
def socialKw : List (List Char) :=
  ["linkedin", "instagram", "thais martan"].map String.toList

/-- Embeds `NewsCollector._calculate_relevance`: lowercase the text, add a
fixed increment per tier keyword found as a substring (1.5, 0.5, 0.5 and
0.2 units, i.e. 15, 5, 5 and 2 tenths), add the title-window bonus (0.3
units) per indicator word among the first ten words, add the social bonus
(0.8 units) if any social marker occurs, and cap the total at 3.0 units
(30 tenths). -/
def calcRelevance (text : List Char) : Int :=
  let tl := text.map Char.toLower
  let s1 := highPriorityKw.foldl (fun s k => if hasSubstr k tl then s + 15 else s) 0
  let s2 := mediumPriorityEn.foldl (fun s k => if hasSubstr k tl then s + 5 else s) s1
  let s3 := mediumPriorityPt.foldl (fun s k => if hasSubstr k tl then s + 5 else s) s2
  let s4 := lowPriorityKw.foldl (fun s k => if hasSubstr k tl then s + 2 else s) s3
  let titleWords := (splitWS tl).take 10
  let s5 := titleIndicators.foldl (fun s w => if w ∈ titleWords then s + 3 else s) s4
  let s6 := if socialKw.any (fun k => hasSubstr k tl) then s5 + 8 else s5
  min s6 30

/-- The temporal test inside `NewsCollector._filter_by_date_and_relevance`,
with `now` in integer seconds: timestamps more than one hour in the future
are accepted, timestamps more than seven days in the past are rejected, and
otherwise the item must not be older than the retention window of
`maxAgeHours` hours. -/
def isRecent (now pub maxAgeHours : Int) : Bool :=
  if now + 3600 < pub then true
  else if pub < now - 7 * 86400 then false
  else decide (now - maxAgeHours * 3600 ≤ pub)

/-- Replace an item's relevance score, the one field the collector writes. -/
def setRelevance (item : NewsItem) (r : Int) : NewsItem :=
  ⟨item.title, item.summary, item.url, item.source, item.publishedAt, r⟩

/-- Stable insert used by `sortByScoreDesc`: `x` goes in front of the first
element whose score is not larger than its own. -/
def insertByScore (x : NewsItem) : List NewsItem → List NewsItem
  | [] => [x]
  | y :: ys =>
    if x.relevanceScore < y.relevanceScore then y :: insertByScore x ys
    else x :: y :: ys

/-- Stable sort by descending relevance score, the observable behavior of
Python's `sorted(key=lambda x: x.relevance_score, reverse=True)` (and of
`list.sort` with the same arguments): ties keep their original order. -/
def sortByScoreDesc : List NewsItem → List NewsItem
  | [] => []
  | x :: xs => insertByScore x (sortByScoreDesc xs)

/-- Embeds `NewsCollector._filter_by_date_and_relevance`: keep items that
pass the temporal test and whose recomputed relevance exceeds 0.3 units
(3 tenths), write the score into the item, and sort by descending score. -/
def filterByDateAndRelevance (now maxAgeHours : Int) (items : List NewsItem) : List NewsItem :=
  sortByScoreDesc (items.filterMap fun item =>
    if isRecent now item.publishedAt maxAgeHours then
      let relevance := calcRelevance (item.title ++ " " ++ item.summary).toList
      if (3 : Int) < relevance then some (setRelevance item relevance) else none
    else none)

/-- Embeds `ContentProcessor._remove_duplicates`; `seen` is the set of urls
already kept, in the role of the Python `seen_urls` set. -/
def removeDupAux (seen : List String) : List NewsItem → List NewsItem
  | [] => []
  | i :: is =>
    if i.url ∈ seen then removeDupAux seen is
    else i :: removeDupAux (i.url :: seen) is

/-- Embeds `ContentProcessor._remove_duplicates`: keep the first occurrence
of each url. -/
def removeDuplicates (items : List NewsItem) : List NewsItem :=
  removeDupAux [] items

/-- Embeds `ContentProcessor._filter_already_processed`: drop items whose
url is in the persisted set. -/
def filterAlreadyProcessed (processedUrls : Finset String) (items : List NewsItem) : List NewsItem :=
  items.filter fun i => decide (i.url ∉ processedUrls)

/-- Embeds `ContentProcessor._prioritize_by_keywords`: re-sort by the
already-computed relevance score, descending, stably. -/
def prioritizeByKeywords (items : List NewsItem) : List NewsItem :=
  sortByScoreDesc items

/-- Embeds the state mutation of `ContentProcessor._update_processed_state`:
add each delivered item's url to the persisted set. -/
def updateProcessedState (processedUrls : Finset String) (finalItems : List NewsItem) : Finset String :=
  finalItems.foldl (fun s i => insert i.url s) processedUrls

/-- Embeds `ContentProcessor.process`: dedup by url, drop already-processed
urls, sort by descending relevance, truncate to ten, and record the
delivered urls.  The pair returned is the delivered list together with the
updated persisted set (the Python instance field `processed_urls`). -/
def process (processedUrls : Finset String) (newsItems : List NewsItem) :
    List NewsItem × Finset String :=
  let uniqueItems := removeDuplicates newsItems
  let newItems := filterAlreadyProcessed processedUrls uniqueItems
  let prioritized := prioritizeByKeywords newItems
  let finalItems := prioritized.take 10
  (finalItems, updateProcessedState processedUrls finalItems)

/-- The persisted state file of `ContentProcessor`: a JSON document with an
optional processed-urls array (read with a get defaulting to the empty
list) and a
`last_updated` timestamp string. -/
structure StateFile where
  processedUrls : Option (List String)
  lastUpdated : String
deriving DecidableEq

/-- The condition of the state file on disk when `_load_processed_urls`
runs: missing, present but unparsable, or parsed. -/
inductive StateFileCond where
  | absent
  | corrupt (raw : String)
  | valid (file : StateFile)

/-- The fallible part of `ContentProcessor._load_processed_urls`: a missing
file leaves the constructor's empty set in place, a corrupt file raises
(modelled as `Except.error`), and a parsed file yields its url set. -/
def loadCore : StateFileCond → Except String (Finset String)
  | .absent => .ok ∅
  | .corrupt _ => .error "failed to parse state file"
  | .valid f => .ok (f.processedUrls.getD []).toFinset

/-- Embeds `ContentProcessor._load_processed_urls` with its exception
handler: any load error falls back to the empty set and is never
propagated. -/
def loadProcessedUrls (cond : StateFileCond) : Finset String :=
  match loadCore cond with
  | .ok s => s
  | .error _ => ∅

/-- Embeds `ContentProcessor._save_processed_urls`: the whole url set is
written out as a list (the Python `list(set)` order is arbitrary; the
embedding serializes in sorted order) together with a fresh timestamp. -/
def saveProcessedUrls (processedUrls : Finset String) (now : String) : StateFile :=
  ⟨some (processedUrls.sort (· ≤ ·)), now⟩

/-! Basic lemmas about the text utilities. -/

theorem hasSubstr_nil (l : List Char) : hasSubstr [] l = true := by
  induction l with
  | nil => rfl
  | cons c rest ih => simp [hasSubstr, List.isPrefixOf, ih]

theorem isPrefixOf_append_mono (n : List Char) :
    ∀ (h h2 : List Char), n.isPrefixOf h = true → n.isPrefixOf (h ++ h2) = true := by
  induction n with
  | nil => intro h h2 _; simp [List.isPrefixOf]
  | cons a n ih =>
    intro h h2 hp
    cases h with
    | nil => simp [List.isPrefixOf] at hp
    | cons b t =>
      simp only [List.isPrefixOf, Bool.and_eq_true, beq_iff_eq] at hp
      simp only [List.cons_append, List.isPrefixOf, Bool.and_eq_true, beq_iff_eq]
      exact ⟨hp.1, ih t h2 hp.2⟩

theorem hasSubstr_append_mono (n : List Char) :
    ∀ (h h2 : List Char), hasSubstr n h = true → hasSubstr n (h ++ h2) = true := by
  intro h
  induction h with
  | nil =>
    intro h2 hh
    simp only [hasSubstr, List.isEmpty_iff] at hh
    subst hh
    exact hasSubstr_nil h2
  | cons c rest ih =>
    intro h2 hh
    simp only [hasSubstr, Bool.or_eq_true] at hh ⊢
    rcases hh with hp | hs
    · exact Or.inl (isPrefixOf_append_mono _ _ _ hp)
    · exact Or.inr (ih h2 hs)

theorem splitWSAux_ws_append (c : Char) (hc : c.isWhitespace = true) :
    ∀ (a cur b : List Char),
      splitWSAux cur (a ++ c :: b) = splitWSAux cur a ++ splitWSAux [] b := by
  intro a
  induction a with
  | nil =>
    intro cur b
    simp only [List.nil_append, splitWSAux, hc, if_true]
    by_cases hcur : cur.isEmpty
    · simp [splitWSAux, hcur]
    · simp [splitWSAux, hcur]
  | cons x a ih =>
    intro cur b
    simp only [List.cons_append, splitWSAux]
    by_cases hx : x.isWhitespace
    · simp only [hx, if_true]
      by_cases hcur : cur.isEmpty
      · simp [hcur, ih]
      · simp [hcur, ih]
    · simp [hx, ih]

theorem splitWS_ws_append (c : Char) (hc : c.isWhitespace = true) (a b : List Char) :
    splitWS (a ++ c :: b) = splitWS a ++ splitWS b :=
  splitWSAux_ws_append c hc a [] b

theorem mem_take_append {α : Type} (x : α) (n : Nat) (l l2 : List α)
    (hx : x ∈ l.take n) : x ∈ (l ++ l2).take n := by
  rw [List.take_append_eq_append_take]
  exact List.mem_append.2 (Or.inl hx)

/-! Monotonicity of the indicator folds in `calcRelevance`. -/

theorem foldl_indicator_mono {α : Type} (w : Int) (hw : 0 ≤ w) (p q : α → Bool)
    (kws : List α) (hpq : ∀ k, p k = true → q k = true) :
    ∀ (a b : Int), a ≤ b →
      kws.foldl (fun s k => if p k then s + w else s) a
        ≤ kws.foldl (fun s k => if q k then s + w else s) b := by
  induction kws with
  | nil => intro a b hab; simpa using hab
  | cons k kws ih =>
    intro a b hab
    simp only [List.foldl_cons]
    apply ih
    by_cases hp : p k = true
    · simp [hp, hpq k hp]; omega
    · simp only [hp, if_false]
      by_cases hq : q k = true
      · simp [hq]; omega
      · simp [hq]; omega

theorem foldl_indicator_mono_prop {α : Type} (w : Int) (hw : 0 ≤ w)
    (p q : α → Prop) [DecidablePred p] [DecidablePred q]
    (kws : List α) (hpq : ∀ k, p k → q k) :
    ∀ (a b : Int), a ≤ b →
      kws.foldl (fun s k => if p k then s + w else s) a
        ≤ kws.foldl (fun s k => if q k then s + w else s) b := by
  induction kws with
  | nil => intro a b hab; simpa using hab
  | cons k kws ih =>
    intro a b hab
    simp only [List.foldl_cons]
    apply ih
    by_cases hp : p k
    · simp [hp, hpq k hp]; omega
    · simp only [hp, if_false]
      by_cases hq : q k
      · simp [hq]; omega
      · simp [hq]; omega

theorem calcRelevance_append_mono (t u : List Char) :
    calcRelevance t ≤ calcRelevance (t ++ ' ' :: u) := by
  have hmap : (t ++ ' ' :: u).map Char.toLower
      = t.map Char.toLower ++ ' ' :: u.map Char.toLower := by
    simp [List.map_append]
  simp only [calcRelevance, hmap]
  have hsub : ∀ k : List Char, hasSubstr k (t.map Char.toLower) = true →
      hasSubstr k (t.map Char.toLower ++ ' ' :: u.map Char.toLower) = true :=
    fun k hk => hasSubstr_append_mono k _ _ hk
  have htitle : ∀ w : List Char, w ∈ (splitWS (t.map Char.toLower)).take 10 →
      w ∈ (splitWS (t.map Char.toLower ++ ' ' :: u.map Char.toLower)).take 10 := by
    intro w hw
    rw [splitWS_ws_append ' ' (by decide)]
    exact mem_take_append w 10 _ _ hw
  have e1 := foldl_indicator_mono 15 (by decide) _ _ highPriorityKw hsub 0 0 le_rfl
  have e2 := foldl_indicator_mono 5 (by decide) _ _ mediumPriorityEn hsub _ _ e1
  have e3 := foldl_indicator_mono 5 (by decide) _ _ mediumPriorityPt hsub _ _ e2
  have e4 := foldl_indicator_mono 2 (by decide) _ _ lowPriorityKw hsub _ _ e3
  have e5 := foldl_indicator_mono_prop 3 (by decide) _ _ titleIndicators htitle _ _ e4
  have hany : (socialKw.any fun k => hasSubstr k (t.map Char.toLower)) = true →
      (socialKw.any fun k =>
        hasSubstr k (t.map Char.toLower ++ ' ' :: u.map Char.toLower)) = true := by
    intro h
    rw [List.any_eq_true] at h ⊢
    obtain ⟨k, hk, hks⟩ := h
    exact ⟨k, hk, hsub k hks⟩
  apply min_le_min _ le_rfl
  by_cases hs : (socialKw.any fun k => hasSubstr k (t.map Char.toLower)) = true
  · simp only [hs, hany hs, if_true]
    omega
  · simp only [hs, if_false]
    by_cases hs2 : (socialKw.any fun k =>
        hasSubstr k (t.map Char.toLower ++ ' ' :: u.map Char.toLower)) = true
    · simp only [hs2, if_true]; omega
    · simp only [hs2, if_false]; exact e5

theorem calcRelevance_le_cap (t : List Char) : calcRelevance t ≤ 30 := by
  simp only [calcRelevance]
  exact min_le_right _ _

/-- C2: holding the tier weights fixed, the relevance score computed by
`calcRelevance` is monotonically non-decreasing as further (keyword-bearing)
text is appended, whitespace-separated, to the input, and the returned
score is always clamped to the configured ceiling of 3.0 units (30
tenths). -/
theorem C2_scoring_monotone_and_capped :
    (∀ t u : List Char, calcRelevance t ≤ calcRelevance (t ++ ' ' :: u)) ∧
    (∀ t : List Char, calcRelevance t ≤ 30) :=
  ⟨calcRelevance_append_mono, calcRelevance_le_cap⟩

/-! Lemmas about the stable sort and the processor's helpers. -/

theorem mem_insertByScore (x y : NewsItem) :
    ∀ l : List NewsItem, x ∈ insertByScore y l ↔ x = y ∨ x ∈ l := by
  intro l
  induction l with
  | nil => simp [insertByScore]
  | cons z l ih =>
    simp only [insertByScore]
    by_cases h : y.relevanceScore < z.relevanceScore
    · simp only [h, if_true, List.mem_cons, ih]
      tauto
    · simp [h]

theorem mem_sortByScoreDesc (x : NewsItem) :
    ∀ l : List NewsItem, x ∈ sortByScoreDesc l ↔ x ∈ l := by
  intro l
  induction l with
  | nil => simp [sortByScoreDesc]
  | cons y l ih => simp [sortByScoreDesc, mem_insertByScore, ih]

theorem length_insertByScore (y : NewsItem) :
    ∀ l : List NewsItem, (insertByScore y l).length = l.length + 1 := by
  intro l
  induction l with
  | nil => rfl
  | cons z l ih =>
    simp only [insertByScore]
    by_cases h : y.relevanceScore < z.relevanceScore
    · simp [h, ih]
    · simp [h]

theorem length_sortByScoreDesc :
    ∀ l : List NewsItem, (sortByScoreDesc l).length = l.length := by
  intro l
  induction l with
  | nil => rfl
  | cons y l ih => simp [sortByScoreDesc, length_insertByScore, ih]

theorem mem_removeDupAux (x : NewsItem) :
    ∀ (l : List NewsItem) (seen : List String), x ∈ removeDupAux seen l → x ∈ l := by
  intro l
  induction l with
  | nil => intro seen h; simp [removeDupAux] at h
  | cons i is ih =>
    intro seen h
    simp only [removeDupAux] at h
    by_cases hm : i.url ∈ seen
    · simp only [hm, if_true] at h
      exact List.mem_cons_of_mem _ (ih seen h)
    · simp only [hm, if_false, List.mem_cons] at h
      rcases h with h | h
      · exact h ▸ List.mem_cons_self _ _
      · exact List.mem_cons_of_mem _ (ih _ h)

theorem url_covered_removeDupAux (x : NewsItem) :
    ∀ (l : List NewsItem) (seen : List String), x ∈ l →
      x.url ∈ seen ∨ ∃ j ∈ removeDupAux seen l, j.url = x.url := by
  intro l
  induction l with
  | nil => intro seen h; simp at h
  | cons i is ih =>
    intro seen hx
    simp only [removeDupAux]
    rcases List.mem_cons.1 hx with rfl | hx
    · by_cases hm : x.url ∈ seen
      · exact Or.inl hm
      · refine Or.inr ?_
        simp only [hm, if_false]
        exact ⟨x, List.mem_cons_self _ _, rfl⟩
    · by_cases hm : i.url ∈ seen
      · simp only [hm, if_true]
        exact ih seen hx
      · simp only [hm, if_false]
        rcases ih (i.url :: seen) hx with hseen | ⟨j, hj, hju⟩
        · rcases List.mem_cons.1 hseen with heq | hseen
          · exact Or.inr ⟨i, List.mem_cons_self _ _, heq.symm⟩
          · exact Or.inl hseen
        · exact Or.inr ⟨j, List.mem_cons_of_mem _ hj, hju⟩

theorem mem_updateProcessedState (x : String) :
    ∀ (l : List NewsItem) (s : Finset String),
      x ∈ updateProcessedState s l ↔ x ∈ s ∨ ∃ i ∈ l, i.url = x := by
  intro l
  induction l with
  | nil => intro s; simp [updateProcessedState]
  | cons i is ih =>
    intro s
    simp only [updateProcessedState, List.foldl_cons]
    rw [show List.foldl (fun s i => insert i.url s) (insert i.url s) is
        = updateProcessedState (insert i.url s) is from rfl] at *
    rw [ih]
    simp only [Finset.mem_insert, List.mem_cons]
    constructor
    · rintro ((h | h) | ⟨j, hj, hju⟩)
      · exact Or.inr ⟨i, Or.inl rfl, h.symm⟩
      · exact Or.inl h
      · exact Or.inr ⟨j, Or.inr hj, hju⟩
    · rintro (h | ⟨j, (rfl | hj), hju⟩)
      · exact Or.inl (Or.inr h)
      · exact Or.inl (Or.inl hju.symm)
      · exact Or.inr ⟨j, hj, hju⟩

/-- C6: for every candidate list and every starting persisted state, the
list returned by `process` has length at most the configured maximum batch
size of ten. -/
theorem C6_batch_cap (processedUrls : Finset String) (newsItems : List NewsItem) :
    (process processedUrls newsItems).1.length ≤ 10 := by
  simp only [process]
  exact List.length_take_le 10 _

/-- C5: for every candidate list, an item whose url is already a member of
the persisted state when `process` is called never appears in the output of
`process`. -/
theorem C5_state_filtering (processedUrls : Finset String) (newsItems : List NewsItem)
    (x : NewsItem) (hx : x ∈ (process processedUrls newsItems).1) :
    x.url ∉ processedUrls := by
  simp only [process] at hx
  have h1 := List.mem_of_mem_take hx
  rw [show prioritizeByKeywords = sortByScoreDesc from rfl, mem_sortByScoreDesc] at h1
  simp only [filterAlreadyProcessed, List.mem_filter] at h1
  exact of_decide_eq_true h1.2

/-- C5 witness at a concrete input. -/
theorem C5_state_filtering_witness :
    (⟨"t", "s", "u", "src", 0, 0⟩ : NewsItem)
        ∈ (process ∅ [⟨"t", "s", "u", "src", 0, 0⟩]).1 ∧
      (⟨"t", "s", "u", "src", 0, 0⟩ : NewsItem).url ∉ (∅ : Finset String) :=
  ⟨by decide, C5_state_filtering ∅ [⟨"t", "s", "u", "src", 0, 0⟩] _ (by decide)⟩

/-- C10: `process` never alters an item: every element of its output is an
element of its input with all six fields unchanged.  (In this embedding the
formatter consumes items purely and returns only rendered text, so the
read-only claim is discharged for it by construction; `process` is the
operation that could have rebuilt items, and this theorem shows it does
not.) -/
theorem C10_items_unchanged (processedUrls : Finset String) (newsItems : List NewsItem)
    (x : NewsItem) (hx : x ∈ (process processedUrls newsItems).1) :
    ∃ y ∈ newsItems, x.title = y.title ∧ x.summary = y.summary ∧ x.url = y.url ∧
      x.source = y.source ∧ x.publishedAt = y.publishedAt ∧
      x.relevanceScore = y.relevanceScore := by
  simp only [process] at hx
  have h1 := List.mem_of_mem_take hx
  rw [show prioritizeByKeywords = sortByScoreDesc from rfl, mem_sortByScoreDesc] at h1
  simp only [filterAlreadyProcessed, List.mem_filter] at h1
  have h2 := mem_removeDupAux x _ _ h1.1
  exact ⟨x, h2, rfl, rfl, rfl, rfl, rfl, rfl⟩

/-- C10 witness at a concrete input. -/
theorem C10_items_unchanged_witness :
    (⟨"t", "s", "u", "src", 0, 0⟩ : NewsItem)
        ∈ (process ∅ [⟨"t", "s", "u", "src", 0, 0⟩]).1 ∧
      ∃ y ∈ [(⟨"t", "s", "u", "src", 0, 0⟩ : NewsItem)],
        (⟨"t", "s", "u", "src", 0, 0⟩ : NewsItem).title = y.title ∧
        (⟨"t", "s", "u", "src", 0, 0⟩ : NewsItem).summary = y.summary ∧
        (⟨"t", "s", "u", "src", 0, 0⟩ : NewsItem).url = y.url ∧
        (⟨"t", "s", "u", "src", 0, 0⟩ : NewsItem).source = y.source ∧
        (⟨"t", "s", "u", "src", 0, 0⟩ : NewsItem).publishedAt = y.publishedAt ∧
        (⟨"t", "s", "u", "src", 0, 0⟩ : NewsItem).relevanceScore = y.relevanceScore :=
  ⟨by decide, C10_items_unchanged ∅ [⟨"t", "s", "u", "src", 0, 0⟩] _ (by decide)⟩

theorem mem_filterByDateAndRelevance (now maxAgeHours : Int) (items : List NewsItem)
    (x : NewsItem) (hx : x ∈ filterByDateAndRelevance now maxAgeHours items) :
    isRecent now x.publishedAt maxAgeHours = true := by
  simp only [filterByDateAndRelevance] at hx
  rw [mem_sortByScoreDesc] at hx
  rw [List.mem_filterMap] at hx
  obtain ⟨a, _, ha⟩ := hx
  by_cases hr : isRecent now a.publishedAt maxAgeHours = true
  · rw [if_pos hr] at ha
    by_cases ht : (3 : Int) < calcRelevance (a.title ++ " " ++ a.summary).toList
    · rw [if_pos ht] at ha
      have hxa := Option.some.inj ha
      rw [← hxa]
      exact hr
    · rw [if_neg ht] at ha
      exact absurd ha (by simp)
  · rw [if_neg hr] at ha
    exact absurd ha (by simp)

/-- C4: the temporal filter of the collector retains any item timestamped
more than the one-hour clock-skew allowance in the future; always rejects
an item more than seven days in the past, regardless of the configured
retention window; otherwise retains an item exactly when it is within the
retention window; every item returned by the full date-and-relevance
filter passed the temporal test; and concretely, an item thirty minutes in
the future is retained while an item ten days old is rejected under the
default 24-hour window. -/
theorem C4_temporal_filter :
    (∀ now pub maxAgeHours : Int, now + 3600 < pub →
      isRecent now pub maxAgeHours = true) ∧
    (∀ now pub maxAgeHours : Int, pub < now - 7 * 86400 →
      isRecent now pub maxAgeHours = false) ∧
    (∀ now pub maxAgeHours : Int, pub ≤ now + 3600 → now - 7 * 86400 ≤ pub →
      (isRecent now pub maxAgeHours = true ↔ now - maxAgeHours * 3600 ≤ pub)) ∧
    (∀ (now maxAgeHours : Int) (items : List NewsItem) (x : NewsItem),
      x ∈ filterByDateAndRelevance now maxAgeHours items →
        isRecent now x.publishedAt maxAgeHours = true) ∧
    (∀ now : Int, isRecent now (now + 1800) 24 = true) ∧
    (∀ now : Int, isRecent now (now - 10 * 86400) 24 = false) := by
  refine ⟨?_, ?_, ?_, mem_filterByDateAndRelevance, ?_, ?_⟩
  · intro now pub maxAgeHours h
    unfold isRecent
    rw [if_pos h]
  · intro now pub maxAgeHours h
    unfold isRecent
    rw [if_neg (by omega : ¬ now + 3600 < pub), if_pos h]
  · intro now pub maxAgeHours h1 h2
    unfold isRecent
    rw [if_neg (by omega : ¬ now + 3600 < pub),
      if_neg (by omega : ¬ pub < now - 7 * 86400)]
    exact decide_eq_true_iff
  · intro now
    unfold isRecent
    rw [if_neg (by omega : ¬ now + 3600 < now + 1800),
      if_neg (by omega : ¬ now + 1800 < now - 7 * 86400)]
    rw [decide_eq_true_iff]
    omega
  · intro now
    unfold isRecent
    rw [if_neg (by omega : ¬ now + 3600 < now - 10 * 86400),
      if_pos (by omega : now - 10 * 86400 < now - 7 * 86400)]

/-- C4 witness at concrete inputs, covering each hypothesis-bearing
conjunct. -/
theorem C4_temporal_filter_witness :
    isRecent 1000000 1003601 24 = true ∧
    isRecent 1000000 (1000000 - 7 * 86400 - 1) 24 = false ∧
    (isRecent 1000000 999000 24 = true ↔ (1000000 : Int) - 24 * 3600 ≤ 999000) ∧
    isRecent 1000000
      ((⟨"ai chatgpt news", "ai chatgpt news", "u", "src", 999000, 28⟩ : NewsItem).publishedAt) 24
        = true :=
  ⟨C4_temporal_filter.1 1000000 1003601 24 (by decide),
   C4_temporal_filter.2.1 1000000 (1000000 - 7 * 86400 - 1) 24 (by decide),
   C4_temporal_filter.2.2.1 1000000 999000 24 (by decide) (by decide),
   C4_temporal_filter.2.2.2.1 1000000 24
     [⟨"ai chatgpt news", "ai chatgpt news", "u", "src", 999000, 0⟩] _ (by decide)⟩

/-- C1 counterexample: with eleven new unique candidates and an empty
starting state, the first `process` call delivers only ten (the batch cap),
so the immediately following call with the same input returns the leftover
item rather than an empty list. -/
theorem C1_idempotence_counterexample :
    (process
      (process ∅
        [⟨"t", "s", "u0", "src", 0, 0⟩, ⟨"t", "s", "u1", "src", 0, 0⟩,
         ⟨"t", "s", "u2", "src", 0, 0⟩, ⟨"t", "s", "u3", "src", 0, 0⟩,
         ⟨"t", "s", "u4", "src", 0, 0⟩, ⟨"t", "s", "u5", "src", 0, 0⟩,
         ⟨"t", "s", "u6", "src", 0, 0⟩, ⟨"t", "s", "u7", "src", 0, 0⟩,
         ⟨"t", "s", "u8", "src", 0, 0⟩, ⟨"t", "s", "u9", "src", 0, 0⟩,
         ⟨"t", "s", "ua", "src", 0, 0⟩]).2
      [⟨"t", "s", "u0", "src", 0, 0⟩, ⟨"t", "s", "u1", "src", 0, 0⟩,
       ⟨"t", "s", "u2", "src", 0, 0⟩, ⟨"t", "s", "u3", "src", 0, 0⟩,
       ⟨"t", "s", "u4", "src", 0, 0⟩, ⟨"t", "s", "u5", "src", 0, 0⟩,
       ⟨"t", "s", "u6", "src", 0, 0⟩, ⟨"t", "s", "u7", "src", 0, 0⟩,
       ⟨"t", "s", "u8", "src", 0, 0⟩, ⟨"t", "s", "u9", "src", 0, 0⟩,
       ⟨"t", "s", "ua", "src", 0, 0⟩]).1 ≠ [] := by
  decide

/-- C1 (amended): when the deduplicated candidates not already in the
persisted state number at most the batch cap of ten, calling `process`
twice in succession with the same input and starting state yields an empty
list on the second call; with more than ten new unique candidates the cap
defers the surplus, so the second call returns the overflow instead. -/
theorem C1_idempotence_under_cap (processedUrls : Finset String) (newsItems : List NewsItem)
    (hlen : (filterAlreadyProcessed processedUrls (removeDuplicates newsItems)).length ≤ 10) :
    (process (process processedUrls newsItems).2 newsItems).1 = [] := by
  have hstate : (process processedUrls newsItems).2
      = updateProcessedState processedUrls
          ((prioritizeByKeywords
            (filterAlreadyProcessed processedUrls (removeDuplicates newsItems))).take 10) := rfl
  have hsortlen : (prioritizeByKeywords
      (filterAlreadyProcessed processedUrls (removeDuplicates newsItems))).length ≤ 10 := by
    rw [show prioritizeByKeywords = sortByScoreDesc from rfl, length_sortByScoreDesc]
    exact hlen
  have htake : (prioritizeByKeywords
      (filterAlreadyProcessed processedUrls (removeDuplicates newsItems))).take 10
      = prioritizeByKeywords
          (filterAlreadyProcessed processedUrls (removeDuplicates newsItems)) :=
    List.take_of_length_le hsortlen
  have hfilter2 : filterAlreadyProcessed (process processedUrls newsItems).2
      (removeDuplicates newsItems) = [] := by
    simp only [filterAlreadyProcessed]
    rw [List.filter_eq_nil_iff]
    intro i hi
    simp only [decide_eq_true_eq, Decidable.not_not]
    rw [hstate, htake, mem_updateProcessedState]
    by_cases hs : i.url ∈ processedUrls
    · exact Or.inl hs
    · refine Or.inr ⟨i, ?_, rfl⟩
      rw [show prioritizeByKeywords = sortByScoreDesc from rfl, mem_sortByScoreDesc]
      simp only [filterAlreadyProcessed, List.mem_filter]
      exact ⟨hi, by simpa using hs⟩
  show ((prioritizeByKeywords (filterAlreadyProcessed (process processedUrls newsItems).2
      (removeDuplicates newsItems))).take 10,
    updateProcessedState _ _).1 = []
  rw [hfilter2]
  rfl

/-- C1 witness at a concrete input. -/
theorem C1_idempotence_under_cap_witness :
    (filterAlreadyProcessed ∅
        (removeDuplicates [(⟨"t", "s", "u", "src", 0, 0⟩ : NewsItem)])).length ≤ 10 ∧
      (process (process ∅ [(⟨"t", "s", "u", "src", 0, 0⟩ : NewsItem)]).2
        [(⟨"t", "s", "u", "src", 0, 0⟩ : NewsItem)]).1 = [] :=
  ⟨by decide, C1_idempotence_under_cap ∅ [⟨"t", "s", "u", "src", 0, 0⟩] (by decide)⟩

/-- C8: saving the persisted url set to the state file and reloading it
reproduces the same set, and loading is insensitive to the order in which
the keys were serialized into the file. -/
theorem C8_state_round_trip :
    (∀ (s : Finset String) (now : String),
      loadProcessedUrls (.valid (saveProcessedUrls s now)) = s) ∧
    (∀ (l l2 : List String) (now : String), l.Perm l2 →
      loadProcessedUrls (.valid ⟨some l, now⟩)
        = loadProcessedUrls (.valid ⟨some l2, now⟩)) := by
  constructor
  · intro s now
    simp only [loadProcessedUrls, loadCore, saveProcessedUrls, Option.getD_some]
    ext a
    rw [List.mem_toFinset, Finset.mem_sort]
  · intro l l2 now h
    simp only [loadProcessedUrls, loadCore, Option.getD_some]
    exact List.toFinset_eq_of_perm l l2 h

/-- C8 witness: a concrete permutation of serialized keys loads to the
same set. -/
theorem C8_state_round_trip_witness :
    loadProcessedUrls (.valid ⟨some ["a", "b"], "ts"⟩)
      = loadProcessedUrls (.valid ⟨some ["b", "a"], "ts"⟩) :=
  C8_state_round_trip.2 ["a", "b"] ["b", "a"] "ts" (by decide)

/-- C9: loading the persisted state never propagates an error to the
caller — the handler turns every load failure into the empty set — and
both a missing state file and a corrupt state file leave the processor
with the empty set of processed urls. -/
theorem C9_best_effort_load :
    (∀ (cond : StateFileCond) (e : String), loadCore cond = .error e →
      loadProcessedUrls cond = ∅) ∧
    loadProcessedUrls .absent = ∅ ∧
    (∀ raw : String, loadProcessedUrls (.corrupt raw) = ∅) := by
  refine ⟨?_, rfl, fun raw => rfl⟩
  intro cond e h
  simp only [loadProcessedUrls, h]

/-- C9 witness at a concrete corrupt file. -/
theorem C9_best_effort_load_witness :
    loadProcessedUrls (.corrupt "not json") = ∅ :=
  C9_best_effort_load.1 (.corrupt "not json") "failed to parse state file" rfl

theorem strip_length_le (l : List Char) : (strip l).length ≤ l.length := by
  unfold strip
  calc ((l.dropWhile Char.isWhitespace).reverse.dropWhile Char.isWhitespace).reverse.length
      = ((l.dropWhile Char.isWhitespace).reverse.dropWhile Char.isWhitespace).length :=
        List.length_reverse _
    _ ≤ (l.dropWhile Char.isWhitespace).reverse.length :=
        (List.dropWhile_sublist _).length_le
    _ = (l.dropWhile Char.isWhitespace).length := List.length_reverse _
    _ ≤ l.length := (List.dropWhile_sublist _).length_le

theorem packLoop_budget (maxLength : Nat) :
    ∀ (fs : List (List Char)) (cur b : List Char), b ∈ packLoop maxLength fs cur →
      b.length ≤ maxLength
        ∨ (∃ f ∈ fs, b = strip f ∧ maxLength < f.length)
        ∨ (b = strip cur ∧ maxLength < cur.length) := by
  intro fs
  induction fs with
  | nil =>
    intro cur b hb
    simp only [packLoop] at hb
    by_cases hc : cur.isEmpty
    · simp [hc] at hb
    · rw [if_neg hc, List.mem_singleton] at hb
      subst hb
      by_cases hlen : cur.length ≤ maxLength
      · exact Or.inl (le_trans (strip_length_le cur) hlen)
      · exact Or.inr (Or.inr ⟨rfl, by omega⟩)
  | cons f fs ih =>
    intro cur b hb
    simp only [packLoop] at hb
    by_cases hover : maxLength < (cur ++ f).length
    · rw [if_pos hover] at hb
      by_cases hc : cur.isEmpty
      · rw [if_pos hc] at hb
        rcases ih f b hb with h | ⟨g, hg, hbg, hgl⟩ | ⟨hbs, hcl⟩
        · exact Or.inl h
        · exact Or.inr (Or.inl ⟨g, List.mem_cons_of_mem _ hg, hbg, hgl⟩)
        · exact Or.inr (Or.inl ⟨f, List.mem_cons_self _ _, hbs, hcl⟩)
      · rw [if_neg hc] at hb
        rcases List.mem_cons.1 hb with rfl | hb2
        · by_cases hlen : cur.length ≤ maxLength
          · exact Or.inl (le_trans (strip_length_le cur) hlen)
          · exact Or.inr (Or.inr ⟨rfl, by omega⟩)
        · rcases ih f b hb2 with h | ⟨g, hg, hbg, hgl⟩ | ⟨hbs, hcl⟩
          · exact Or.inl h
          · exact Or.inr (Or.inl ⟨g, List.mem_cons_of_mem _ hg, hbg, hgl⟩)
          · exact Or.inr (Or.inl ⟨f, List.mem_cons_self _ _, hbs, hcl⟩)
    · rw [if_neg hover] at hb
      rcases ih (cur ++ f) b hb with h | ⟨g, hg, hbg, hgl⟩ | ⟨hbs, hcl⟩
      · exact Or.inl h
      · exact Or.inr (Or.inl ⟨g, List.mem_cons_of_mem _ hg, hbg, hgl⟩)
      · exact absurd hcl hover

/-- C3: every block produced by `formatMessages` has length at most the
configured character budget, except for a block that is (the stripped form
of) one single rendered fragment which alone exceeds the budget; such an
oversized fragment always becomes its own block and is never split. -/
theorem C3_formatter_budget (maxLength summaryMaxLength : Nat) (items : List NewsItem)
    (b : List Char) (hb : b ∈ formatMessages maxLength summaryMaxLength items) :
    b.length ≤ maxLength
      ∨ ∃ item ∈ items, b = strip (formatSingleItem summaryMaxLength item)
          ∧ maxLength < (formatSingleItem summaryMaxLength item).length := by
  simp only [formatMessages] at hb
  by_cases hi : items.isEmpty
  · simp [hi] at hb
  · rw [if_neg hi] at hb
    rcases packLoop_budget maxLength _ [] b hb with h | ⟨g, hg, hbg, hgl⟩ | ⟨_, hcl⟩
    · exact Or.inl h
    · obtain ⟨item, hitem, rfl⟩ := List.mem_map.1 hg
      exact Or.inr ⟨item, hitem, hbg, hgl⟩
    · simp at hcl

/-- C3 witness at a concrete input. -/
theorem C3_formatter_budget_witness :
    "📰 t\n📝 s\n🔗 u".toList
        ∈ formatMessages 4000 150 [(⟨"t", "s", "u", "src", 0, 0⟩ : NewsItem)] ∧
      ("📰 t\n📝 s\n🔗 u".toList.length ≤ 4000
        ∨ ∃ item ∈ [(⟨"t", "s", "u", "src", 0, 0⟩ : NewsItem)],
            "📰 t\n📝 s\n🔗 u".toList = strip (formatSingleItem 150 item)
              ∧ 4000 < (formatSingleItem 150 item).length) :=
  ⟨by decide, C3_formatter_budget 4000 150 [⟨"t", "s", "u", "src", 0, 0⟩] _ (by decide)⟩

/-! Lemmas describing the sanitization pipeline of `cleanText`. -/

theorem splitWSAux_props :
    ∀ (l cur : List Char), (∀ c ∈ cur, c.isWhitespace = false) →
      ∀ w ∈ splitWSAux cur l,
        w ≠ [] ∧ ∀ c ∈ w, c.isWhitespace = false ∧ (c ∈ cur ∨ c ∈ l) := by
  intro l
  induction l with
  | nil =>
    intro cur hcur w hw
    simp only [splitWSAux] at hw
    by_cases hc : cur.isEmpty
    · simp [hc] at hw
    · rw [if_neg hc, List.mem_singleton] at hw
      subst hw
      refine ⟨by simpa [List.reverse_eq_nil_iff] using hc, ?_⟩
      intro c hcm
      rw [List.mem_reverse] at hcm
      exact ⟨hcur c hcm, Or.inl hcm⟩
  | cons a rest ih =>
    intro cur hcur w hw
    simp only [splitWSAux] at hw
    by_cases ha : a.isWhitespace
    · rw [if_pos ha] at hw
      by_cases hc : cur.isEmpty
      · rw [if_pos hc] at hw
        have := ih [] (by simp) w hw
        refine ⟨this.1, fun c hcm => ⟨(this.2 c hcm).1, ?_⟩⟩
        rcases (this.2 c hcm).2 with h | h
        · simp at h
        · exact Or.inr (List.mem_cons_of_mem _ h)
      · rw [if_neg hc] at hw
        rcases List.mem_cons.1 hw with rfl | hw2
        · refine ⟨by simpa [List.reverse_eq_nil_iff] using hc, ?_⟩
          intro c hcm
          rw [List.mem_reverse] at hcm
          exact ⟨hcur c hcm, Or.inl hcm⟩
        · have := ih [] (by simp) w hw2
          refine ⟨this.1, fun c hcm => ⟨(this.2 c hcm).1, ?_⟩⟩
          rcases (this.2 c hcm).2 with h | h
          · simp at h
          · exact Or.inr (List.mem_cons_of_mem _ h)
    · rw [if_neg ha] at hw
      have hcur2 : ∀ c ∈ a :: cur, c.isWhitespace = false := by
        intro c hcm
        rcases List.mem_cons.1 hcm with rfl | h
        · exact Bool.not_eq_true _ ▸ by simpa using ha
        · exact hcur c h
      have := ih (a :: cur) hcur2 w hw
      refine ⟨this.1, fun c hcm => ⟨(this.2 c hcm).1, ?_⟩⟩
      rcases (this.2 c hcm).2 with h | h
      · rcases List.mem_cons.1 h with rfl | h2
        · exact Or.inr (List.mem_cons_self _ _)
        · exact Or.inl h2
      · exact Or.inr (List.mem_cons_of_mem _ h)

theorem splitWS_props (l : List Char) :
    ∀ w ∈ splitWS l, w ≠ [] ∧ ∀ c ∈ w, c.isWhitespace = false ∧ c ∈ l := by
  intro w hw
  have := splitWSAux_props l [] (by simp) w hw
  refine ⟨this.1, fun c hcm => ⟨(this.2 c hcm).1, ?_⟩⟩
  rcases (this.2 c hcm).2 with h | h
  · simp at h
  · exact h

theorem mem_joinSp (c : Char) :
    ∀ ws : List (List Char), c ∈ joinSp ws → c = ' ' ∨ ∃ w ∈ ws, c ∈ w := by
  intro ws
  induction ws with
  | nil => simp [joinSp]
  | cons w ws ih =>
    cases ws with
    | nil =>
      intro hc
      exact Or.inr ⟨w, List.mem_cons_self _ _, by simpa [joinSp] using hc⟩
    | cons w2 ws2 =>
      intro hc
      rw [show joinSp (w :: w2 :: ws2) = w ++ ' ' :: joinSp (w2 :: ws2) from rfl] at hc
      rcases List.mem_append.1 hc with h | h
      · exact Or.inr ⟨w, List.mem_cons_self _ _, h⟩
      · rcases List.mem_cons.1 h with rfl | h2
        · exact Or.inl rfl
        · rcases ih h2 with h3 | ⟨w3, hw3, hcw3⟩
          · exact Or.inl h3
          · exact Or.inr ⟨w3, List.mem_cons_of_mem _ hw3, hcw3⟩

theorem noDoubleWS_of_allNonWS :
    ∀ l : List Char, (∀ c ∈ l, c.isWhitespace = false) → noDoubleWS l = true := by
  intro l
  induction l with
  | nil => intro _; rfl
  | cons a l ih =>
    intro h
    cases l with
    | nil => rfl
    | cons b t =>
      simp only [noDoubleWS, Bool.and_eq_true]
      constructor
      · simp [h a (List.mem_cons_self _ _)]
      · exact ih fun c hc => h c (List.mem_cons_of_mem _ hc)

theorem noDoubleWS_append_left :
    ∀ (w l : List Char), (∀ c ∈ w, c.isWhitespace = false) → noDoubleWS l = true →
      noDoubleWS (w ++ l) = true := by
  intro w
  induction w with
  | nil => intro l _ hl; simpa using hl
  | cons a w ih =>
    intro l hw hl
    cases w with
    | nil =>
      cases l with
      | nil => rfl
      | cons b t =>
        simp only [List.nil_append, List.cons_append, noDoubleWS, Bool.and_eq_true]
        exact ⟨by simp [hw a (List.mem_cons_self _ _)], hl⟩
    | cons a2 w2 =>
      simp only [List.cons_append, noDoubleWS, Bool.and_eq_true]
      constructor
      · simp [hw a (List.mem_cons_self _ _)]
      · exact ih l (fun c hc => hw c (List.mem_cons_of_mem _ hc)) hl

theorem noDoubleWS_append_right :
    ∀ (x y : List Char), noDoubleWS x = true → (∀ c ∈ y, c.isWhitespace = false) →
      noDoubleWS (x ++ y) = true := by
  intro x
  induction x with
  | nil => intro y _ hy; exact noDoubleWS_of_allNonWS y hy
  | cons a x ih =>
    intro y hx hy
    cases x with
    | nil =>
      cases y with
      | nil => rfl
      | cons b t =>
        simp only [List.nil_append, List.cons_append, noDoubleWS, Bool.and_eq_true]
        refine ⟨by simp [hy b (List.mem_cons_self _ _)], ?_⟩
        exact noDoubleWS_of_allNonWS _ hy
    | cons a2 x2 =>
      simp only [noDoubleWS, Bool.and_eq_true] at hx
      simp only [List.cons_append, noDoubleWS, Bool.and_eq_true]
      exact ⟨hx.1, ih y hx.2 hy⟩

theorem joinSp_head (c2 : Char) (w2 : List Char) :
    ∀ ws : List (List Char), ∃ r, joinSp ((c2 :: w2) :: ws) = c2 :: r := by
  intro ws
  cases ws with
  | nil => exact ⟨w2, rfl⟩
  | cons w3 ws3 => exact ⟨w2 ++ ' ' :: joinSp (w3 :: ws3), rfl⟩

theorem noDoubleWS_joinSp :
    ∀ ws : List (List Char),
      (∀ w ∈ ws, w ≠ [] ∧ ∀ c ∈ w, c.isWhitespace = false) →
      noDoubleWS (joinSp ws) = true := by
  intro ws
  induction ws with
  | nil => intro _; rfl
  | cons w ws2 ih =>
    intro h
    cases ws2 with
    | nil =>
      exact noDoubleWS_of_allNonWS _ ((h w (List.mem_cons_self _ _)).2)
    | cons w2 ws3 =>
      rw [show joinSp (w :: w2 :: ws3) = w ++ ' ' :: joinSp (w2 :: ws3) from rfl]
      apply noDoubleWS_append_left w _ ((h w (List.mem_cons_self _ _)).2)
      have hw2 := h w2 (List.mem_cons_of_mem _ (List.mem_cons_self _ _))
      obtain ⟨c2, w2t, rfl⟩ := List.exists_cons_of_ne_nil hw2.1
      obtain ⟨r, hr⟩ := joinSp_head c2 w2t ws3
      rw [hr]
      simp only [noDoubleWS, Bool.and_eq_true]
      constructor
      · simp [hw2.2 c2 (List.mem_cons_self _ _)]
      · rw [← hr]
        exact ih fun w hw => h w (List.mem_cons_of_mem _ hw)

theorem dropWhile_eq_self_of_headNonWS (l : List Char) (h : headNonWS l = true) :
    l.dropWhile Char.isWhitespace = l := by
  cases l with
  | nil => rfl
  | cons c t =>
    simp only [headNonWS, Bool.not_eq_eq_eq_not, Bool.not_true] at h
    simp [List.dropWhile, h]

theorem strip_eq_self (l : List Char) (h1 : headNonWS l = true)
    (h2 : headNonWS l.reverse = true) : strip l = l := by
  unfold strip
  rw [dropWhile_eq_self_of_headNonWS l h1, dropWhile_eq_self_of_headNonWS l.reverse h2,
    List.reverse_reverse]

theorem headNonWS_append (x y : List Char) (hx : x ≠ []) :
    headNonWS (x ++ y) = headNonWS x := by
  cases x with
  | nil => exact absurd rfl hx
  | cons c t => rfl

theorem headNonWS_joinSp (ws : List (List Char))
    (h : ∀ w ∈ ws, w ≠ [] ∧ ∀ c ∈ w, c.isWhitespace = false) :
    headNonWS (joinSp ws) = true := by
  cases ws with
  | nil => rfl
  | cons w ws2 =>
    have hw := h w (List.mem_cons_self _ _)
    obtain ⟨c, wt, rfl⟩ := List.exists_cons_of_ne_nil hw.1
    obtain ⟨r, hr⟩ := joinSp_head c wt ws2
    rw [hr]
    simp [headNonWS, hw.2 c (List.mem_cons_self _ _)]

theorem headNonWS_reverse_joinSp :
    ∀ ws : List (List Char),
      (∀ w ∈ ws, w ≠ [] ∧ ∀ c ∈ w, c.isWhitespace = false) →
      headNonWS (joinSp ws).reverse = true := by
  intro ws
  induction ws with
  | nil => intro _; rfl
  | cons w ws2 ih =>
    intro h
    have hw := h w (List.mem_cons_self _ _)
    cases ws2 with
    | nil =>
      show headNonWS w.reverse = true
      cases hwr : w.reverse with
      | nil => exact absurd (by simpa [List.reverse_eq_nil_iff] using hwr) hw.1
      | cons c r =>
        have hc : c ∈ w := by
          rw [← List.mem_reverse, hwr]
          exact List.mem_cons_self _ _
        simp [headNonWS, hw.2 c hc]
    | cons w2 ws3 =>
      have hw2 := h w2 (List.mem_cons_of_mem _ (List.mem_cons_self _ _))
      obtain ⟨c2, w2t, hw2e⟩ := List.exists_cons_of_ne_nil hw2.1
      have hne : (joinSp (w2 :: ws3)).reverse ≠ [] := by
        rw [hw2e]
        obtain ⟨r, hr⟩ := joinSp_head c2 w2t ws3
        rw [hr]
        simp
      rw [show joinSp (w :: w2 :: ws3) = w ++ ' ' :: joinSp (w2 :: ws3) from rfl,
        List.reverse_append, List.reverse_cons,
        headNonWS_append _ _ (by simp [hne]), headNonWS_append _ _ hne]
      exact ih fun w hw => h w (List.mem_cons_of_mem _ hw)

theorem mem_replaceAll (t : Char) (repl l : List Char) (c : Char)
    (hc : c ∈ replaceAll t repl l) : c ∈ repl ∨ (c ∈ l ∧ c ≠ t) := by
  unfold replaceAll at hc
  rw [List.mem_flatMap] at hc
  obtain ⟨a, ha, hca⟩ := hc
  by_cases hat : a = t
  · rw [if_pos hat] at hca
    exact Or.inl hca
  · rw [if_neg hat] at hca
    rw [List.mem_singleton] at hca
    subst hca
    exact Or.inr ⟨ha, hat⟩

theorem mem_afterLastNl :
    ∀ (l r : List Char), afterLastNl l = some r → ∀ c ∈ r, c ∈ l := by
  intro l
  induction l with
  | nil => intro r h; simp [afterLastNl] at h
  | cons a t ih =>
    intro r h c hc
    simp only [afterLastNl] at h
    cases ha : afterLastNl t with
    | some r2 =>
      rw [ha] at h
      cases h
      exact List.mem_cons_of_mem _ (ih _ ha c hc)
    | none =>
      rw [ha] at h
      by_cases han : a = '\n'
      · simp only [han, if_true, Option.some.injEq] at h
        subst h
        exact List.mem_cons_of_mem _ hc
      · simp [han] at h

theorem mem_collapseBlankGo :
    ∀ (fuel : Nat) (l : List Char) (c : Char),
      c ∈ collapseBlankGo fuel l → c ∈ l ∨ c = '\n' := by
  intro fuel
  induction fuel with
  | zero => intro l c hc; exact Or.inl hc
  | succ fuel ih =>
    intro l c hc
    cases l with
    | nil => simp [collapseBlankGo] at hc
    | cons a rest =>
      simp only [collapseBlankGo] at hc
      by_cases ha : a = '\n'
      · rw [if_pos ha] at hc
        cases hm : afterLastNl (rest.takeWhile Char.isWhitespace) with
        | some tail =>
          rw [hm] at hc
          rcases List.mem_cons.1 hc with rfl | hc2
          · exact Or.inr rfl
          · rcases ih _ c hc2 with h | h
            · rcases List.mem_append.1 h with h2 | h2
              · have h3 : c ∈ rest.takeWhile Char.isWhitespace :=
                  mem_afterLastNl _ _ hm c h2
                exact Or.inl (List.mem_cons_of_mem _
                  ((List.takeWhile_sublist _).mem h3))
              · exact Or.inl (List.mem_cons_of_mem _
                  ((List.dropWhile_sublist _).mem h2))
            · exact Or.inr h
        | none =>
          rw [hm] at hc
          rcases List.mem_cons.1 hc with rfl | hc2
          · exact Or.inl (List.mem_cons_self _ _)
          · rcases ih _ c hc2 with h | h
            · exact Or.inl (List.mem_cons_of_mem _ h)
            · exact Or.inr h
      · rw [if_neg ha] at hc
        rcases List.mem_cons.1 hc with rfl | hc2
        · exact Or.inl (List.mem_cons_self _ _)
        · rcases ih _ c hc2 with h | h
          · exact Or.inl (List.mem_cons_of_mem _ h)
          · exact Or.inr h

theorem splitWS_good (X : List Char) :
    ∀ w ∈ splitWS X, w ≠ [] ∧ ∀ c ∈ w, c.isWhitespace = false := fun w hw =>
  ⟨(splitWS_props X w hw).1, fun c hc => ((splitWS_props X w hw).2 c hc).1⟩

theorem strip_joinSp_splitWS (X : List Char) :
    strip (joinSp (splitWS X)) = joinSp (splitWS X) :=
  strip_eq_self _ (headNonWS_joinSp _ (splitWS_good X))
    (headNonWS_reverse_joinSp _ (splitWS_good X))

theorem mem_joinSp_splitWS (X : List Char) (c : Char) (hc : c ∈ joinSp (splitWS X)) :
    c = ' ' ∨ (c ∈ X ∧ c.isWhitespace = false) := by
  rcases mem_joinSp c _ hc with h | ⟨w, hw, hcw⟩
  · exact Or.inl h
  · exact Or.inr ⟨((splitWS_props X w hw).2 c hcw).2, ((splitWS_props X w hw).2 c hcw).1⟩

theorem mem_fitWords :
    ∀ (ws : List (List Char)) (budget : Nat) (w : List Char),
      w ∈ fitWords budget ws → w ∈ ws := by
  intro ws
  induction ws with
  | nil => intro budget w h; simp [fitWords] at h
  | cons w2 ws ih =>
    intro budget w h
    simp only [fitWords] at h
    by_cases hb : w2.length ≤ budget
    · rw [if_pos hb] at h
      rcases List.mem_cons.1 h with rfl | h2
      · exact List.mem_cons_self _ _
      · exact List.mem_cons_of_mem _ (ih _ w h2)
    · rw [if_neg hb] at h
      simp at h

theorem mem_shorten (width : Nat) (l : List Char) (c : Char)
    (hc : c ∈ shorten width l) : c = ' ' ∨ c = '.' ∨ (c ∈ l ∧ c.isWhitespace = false) := by
  simp only [shorten] at hc
  by_cases hfit : (joinSp (splitWS l)).length ≤ width
  · rw [if_pos hfit] at hc
    rcases mem_joinSp_splitWS l c hc with h | h
    · exact Or.inl h
    · exact Or.inr (Or.inr h)
  · rw [if_neg hfit] at hc
    by_cases hkept : (fitWords (width - 3) (splitWS l)).isEmpty
    · rw [if_pos hkept] at hc
      have : ("...".toList : List Char) = ['.', '.', '.'] := rfl
      rw [this] at hc
      simp at hc
      exact Or.inr (Or.inl hc)
    · rw [if_neg hkept] at hc
      rcases List.mem_append.1 hc with h | h
      · rcases mem_joinSp c _ h with h2 | ⟨w, hw, hcw⟩
        · exact Or.inl h2
        · have hws := mem_fitWords _ _ w hw
          exact Or.inr (Or.inr ⟨((splitWS_props l w hws).2 c hcw).2,
            ((splitWS_props l w hws).2 c hcw).1⟩)
      · have : ("...".toList : List Char) = ['.', '.', '.'] := rfl
        rw [this] at h
        simp at h
        exact Or.inr (Or.inl h)

theorem noDoubleWS_shorten (width : Nat) (l : List Char) :
    noDoubleWS (shorten width l) = true := by
  simp only [shorten]
  by_cases hfit : (joinSp (splitWS l)).length ≤ width
  · rw [if_pos hfit]
    exact noDoubleWS_joinSp _ (splitWS_good l)
  · rw [if_neg hfit]
    by_cases hkept : (fitWords (width - 3) (splitWS l)).isEmpty
    · rw [if_pos hkept]
      decide
    · rw [if_neg hkept]
      apply noDoubleWS_append_right
      · exact noDoubleWS_joinSp _ fun w hw => splitWS_good l w (mem_fitWords _ _ w hw)
      · decide

theorem cleanText_props (t : List Char) :
    '<' ∉ cleanText t ∧ '>' ∉ cleanText t ∧ '\n' ∉ cleanText t
      ∧ noDoubleWS (cleanText t) = true := by
  by_cases ht : t.isEmpty
  · simp only [cleanText, ht, if_true]
    exact ⟨by simp, by simp, by simp, rfl⟩
  · have he : cleanText t
        = joinSp (splitWS (collapseBlank
            (replaceAll '>' "&gt;".toList (replaceAll '<' "&lt;".toList t)))) := by
      unfold cleanText
      rw [if_neg ht]
      exact strip_joinSp_splitWS _
    rw [he]
    refine ⟨?_, ?_, ?_, noDoubleWS_joinSp _ (splitWS_good _)⟩
    · intro hmem
      rcases mem_joinSp_splitWS _ _ hmem with h | ⟨h, _⟩
      · exact absurd h (by decide)
      · rcases mem_collapseBlankGo _ _ _ h with h2 | h2
        · rcases mem_replaceAll _ _ _ _ h2 with h3 | ⟨h3, _⟩
          · exact absurd h3 (by decide)
          · rcases mem_replaceAll _ _ _ _ h3 with h4 | ⟨_, h4⟩
            · exact absurd h4 (by decide)
            · exact absurd rfl h4
        · exact absurd h2 (by decide)
    · intro hmem
      rcases mem_joinSp_splitWS _ _ hmem with h | ⟨h, _⟩
      · exact absurd h (by decide)
      · rcases mem_collapseBlankGo _ _ _ h with h2 | h2
        · rcases mem_replaceAll _ _ _ _ h2 with h3 | ⟨h3, h3n⟩
          · exact absurd h3 (by decide)
          · exact absurd rfl h3n
        · exact absurd h2 (by decide)
    · intro hmem
      rcases mem_joinSp_splitWS _ _ hmem with h | ⟨_, h⟩
      · exact absurd h (by decide)
      · exact absurd h (by decide)

/-- C7 counterexample: the claim that every rendered fragment has its
reserved markup characters escaped is false — the url field is inserted
after a whitespace strip only, with no escaping, so a url containing a
reserved character puts it verbatim into the fragment. -/
theorem C7_sanitization_counterexample :
    '<' ∈ formatSingleItem 150 ⟨"t", "s", "<u>", "src", 0, 0⟩ := by
  decide

/-- C7 (amended): the title and summary fields are sanitized before
template substitution — the cleaned text contains no reserved markup
character, no newline (so no blank lines survive), and no two adjacent
whitespace characters, and the shortened summary keeps its whitespace
collapsed — but the url field is only whitespace-stripped, never escaped,
so any reserved markup character in a rendered fragment comes from the url
(and the source's fallback rendering likewise applies no sanitization). -/
theorem C7_sanitization_amended :
    (∀ t : List Char, '<' ∉ cleanText t ∧ '>' ∉ cleanText t ∧ '\n' ∉ cleanText t
      ∧ noDoubleWS (cleanText t) = true) ∧
    (∀ (width : Nat) (t : List Char), noDoubleWS (shorten width t) = true) ∧
    (∀ (summaryMaxLength : Nat) (item : NewsItem),
      ('<' ∈ formatSingleItem summaryMaxLength item → '<' ∈ strip item.url.toList) ∧
      ('>' ∈ formatSingleItem summaryMaxLength item → '>' ∈ strip item.url.toList)) := by
  refine ⟨cleanText_props, noDoubleWS_shorten, ?_⟩
  intro summaryMaxLength item
  constructor
  · intro hmem
    unfold formatSingleItem at hmem
    rcases List.mem_append.1 hmem with h | h
    · rcases List.mem_append.1 h with h | h
      · rcases List.mem_append.1 h with h | h
        · rcases List.mem_append.1 h with h | h
          · rcases List.mem_append.1 h with h | h
            · rcases List.mem_append.1 h with h | h
              · exact absurd h (by decide)
              · exact absurd h (cleanText_props _).1
            · exact absurd h (by decide)
          · rcases mem_shorten _ _ _ h with h2 | h2 | ⟨h2, _⟩
            · exact absurd h2 (by decide)
            · exact absurd h2 (by decide)
            · exact absurd h2 (cleanText_props _).1
        · exact absurd h (by decide)
      · exact h
    · exact absurd h (by decide)
  · intro hmem
    unfold formatSingleItem at hmem
    rcases List.mem_append.1 hmem with h | h
    · rcases List.mem_append.1 h with h | h
      · rcases List.mem_append.1 h with h | h
        · rcases List.mem_append.1 h with h | h
          · rcases List.mem_append.1 h with h | h
            · rcases List.mem_append.1 h with h | h
              · exact absurd h (by decide)
              · exact absurd h (cleanText_props _).2.1
            · exact absurd h (by decide)
          · rcases mem_shorten _ _ _ h with h2 | h2 | ⟨h2, _⟩
            · exact absurd h2 (by decide)
            · exact absurd h2 (by decide)
            · exact absurd h2 (cleanText_props _).2.1
        · exact absurd h (by decide)
      · exact h
    · exact absurd h (by decide)

/-- C7 witness at a concrete input: the reserved character in the rendered
fragment indeed comes from the url. -/
theorem C7_sanitization_amended_witness :
    '<' ∈ formatSingleItem 150 ⟨"a", "b", " <x> ", "src", 0, 0⟩ ∧
      '<' ∈ strip (" <x> ".toList) :=
  ⟨by decide,
   (C7_sanitization_amended.2.2 150 ⟨"a", "b", " <x> ", "src", 0, 0⟩).1 (by decide)⟩
